import Mathlib

set_option maxHeartbeats 1000000

/-!
Shallow embedding of NanoClaw (`src/index.ts`), a minimal Telegram-to-Claude
bridge: a bounded JSONL conversation-history store (`loadHistory`,
`saveHistory`, `addToHistory`) plus the message-handling flow
(`getResponse` and the `message:text` handler).  Text is modelled as
`List Char`; the history file is modelled as `Option (List Char)`
(`none` = the file does not exist).  Fallible operations return `Option`
(`none` = a thrown exception).
-/

abbrev Str := List Char

/-- Code points removed by JavaScript `String.prototype.trim`
(WhiteSpace and LineTerminator). -/
def jsWsCodes : List Nat :=
  [9, 10, 11, 12, 13, 32, 160, 5760, 8192, 8193, 8194, 8195, 8196, 8197,
   8198, 8199, 8200, 8201, 8202, 8232, 8233, 8239, 8287, 12288, 65279]

def isJsWs (c : Char) : Bool := jsWsCodes.contains c.toNat

/-- `s.trim()` of JavaScript: strip leading and trailing whitespace. -/
def jsTrim (s : Str) : Str :=
  ((s.dropWhile isJsWs).reverse.dropWhile isJsWs).reverse

/-- `s.split('\n')` of JavaScript. -/
def splitNl : Str → List Str
  | [] => [[]]
  | c :: rest =>
    if c = '\n' then [] :: splitNl rest
    else
      match splitNl rest with
      | [] => [[c]]
      | l :: ls => (c :: l) :: ls

/-- `role` field of a `Message`: the TS union `'user' | 'assistant'`. -/
inductive Role where
  | user
  | assistant
  deriving DecidableEq, Repr

def Role.str : Role → Str
  | .user => "user".data
  | .assistant => "assistant".data

/-- The `Message` interface of `index.ts`. -/
structure Message where
  role : Role
  content : Str
  timestamp : Str
  deriving DecidableEq, Repr

/-- Lowercase hex digit, as emitted by `JSON.stringify` in `\u00XX` escapes. -/
def hexDigitChar (n : Nat) : Char :=
  if n < 10 then Char.ofNat (48 + n) else Char.ofNat (87 + n)

/-- Value of one hex digit (`JSON.parse` accepts both cases). -/
def hexVal (c : Char) : Option Nat :=
  if 48 ≤ c.toNat ∧ c.toNat ≤ 57 then some (c.toNat - 48)
  else if 97 ≤ c.toNat ∧ c.toNat ≤ 102 then some (c.toNat - 87)
  else if 65 ≤ c.toNat ∧ c.toNat ≤ 70 then some (c.toNat - 55)
  else none

/-- `JSON.stringify` escaping of one character inside a string literal. -/
def escChar (c : Char) : Str :=
  if c = '"' then ['\\', '"']
  else if c = '\\' then ['\\', '\\']
  else if c.toNat = 8 then ['\\', 'b']
  else if c.toNat = 12 then ['\\', 'f']
  else if c = '\n' then ['\\', 'n']
  else if c.toNat = 13 then ['\\', 'r']
  else if c = '\t' then ['\\', 't']
  else if c.toNat < 32 then
    ['\\', 'u', '0', '0', hexDigitChar (c.toNat / 16), hexDigitChar (c.toNat % 16)]
  else [c]

def jsonEscape : Str → Str
  | [] => []
  | c :: rest => escChar c ++ jsonEscape rest

/-- `\x7b"role":"` — opening of the serialized record. -/
def roleKey : Str := ['\x7b', '"', 'r', 'o', 'l', 'e', '"', ':', '"']

/-- `","content":"` separator (after the closing quote of the role). -/
def contentKey : Str := [',', '"', 'c', 'o', 'n', 't', 'e', 'n', 't', '"', ':', '"']

/-- `","timestamp":"` separator. -/
def timestampKey : Str :=
  [',', '"', 't', 'i', 'm', 'e', 's', 't', 'a', 'm', 'p', '"', ':', '"']

/-- `JSON.stringify(m)` for a `Message` object literal with fields in
declaration order `role`, `content`, `timestamp`. -/
def stringifyMessage (m : Message) : Str :=
  roleKey ++ (jsonEscape m.role.str ++ '"' ::
    (contentKey ++ (jsonEscape m.content ++ '"' ::
      (timestampKey ++ (jsonEscape m.timestamp ++ '"' :: ['\x7d'])))))

/-- Consume an expected literal from the front of the input. -/
def dropLit : Str → Str → Option Str
  | [], s => some s
  | _ :: _, [] => none
  | p :: ps, c :: cs => if p = c then dropLit ps cs else none

/-- Parse the body of a JSON string literal (input starts after the opening
quote); returns the decoded text and the rest after the closing quote. -/
def parseJString : Str → Option (Str × Str)
  | [] => none
  | c :: rest =>
    if c = '"' then some ([], rest)
    else if c = '\\' then
      match rest with
      | [] => none
      | e :: r =>
        if e = '"' then (parseJString r).map fun p => ('"' :: p.1, p.2)
        else if e = '\\' then (parseJString r).map fun p => ('\\' :: p.1, p.2)
        else if e = '/' then (parseJString r).map fun p => ('/' :: p.1, p.2)
        else if e = 'b' then (parseJString r).map fun p => (Char.ofNat 8 :: p.1, p.2)
        else if e = 'f' then (parseJString r).map fun p => (Char.ofNat 12 :: p.1, p.2)
        else if e = 'n' then (parseJString r).map fun p => ('\n' :: p.1, p.2)
        else if e = 'r' then (parseJString r).map fun p => (Char.ofNat 13 :: p.1, p.2)
        else if e = 't' then (parseJString r).map fun p => ('\t' :: p.1, p.2)
        else if e = 'u' then
          match r with
          | h1 :: h2 :: h3 :: h4 :: r2 =>
            match hexVal h1, hexVal h2, hexVal h3, hexVal h4 with
            | some a, some b, some c2, some d =>
              let n := ((a * 16 + b) * 16 + c2) * 16 + d
              if n < 55296 ∨ (57344 ≤ n ∧ n ≤ 65535) then
                (parseJString r2).map fun p => (Char.ofNat n :: p.1, p.2)
              else none
            | _, _, _, _ => none
          | _ => none
        else none
    else (parseJString rest).map fun p => (c :: p.1, p.2)

def parseRole (s : Str) : Option Role :=
  if s = "user".data then some Role.user
  else if s = "assistant".data then some Role.assistant
  else none

/-- Parse one line of the persisted log as a `Message` record
(`JSON.parse` restricted to the record shape `saveHistory` writes). -/
def parseMessage (line : Str) : Option Message := do
  let r1 ← dropLit roleKey line
  let (roleStr, r2) ← parseJString r1
  let role ← parseRole roleStr
  let r3 ← dropLit contentKey r2
  let (content, r4) ← parseJString r3
  let r5 ← dropLit timestampKey r4
  let (ts, r6) ← parseJString r5
  if r6 = ['\x7d'] then some ⟨role, content, ts⟩ else none

/-- `lines.join('\n')`. -/
def joinLines : List Str → Str
  | [] => []
  | [l] => l
  | l :: ls => l ++ '\n' :: joinLines ls

/-- The file content `saveHistory` writes for a given history. -/
def historyContent (msgs : List Message) : Str :=
  joinLines (msgs.map stringifyMessage)

/-- `lines.map(line => JSON.parse(line))`: the first parse failure throws. -/
def parseAll : List Str → Option (List Message)
  | [] => some []
  | l :: ls =>
    match parseMessage l, parseAll ls with
    | some m, some ms => some (m :: ms)
    | _, _ => none

/-- `readFileSync(...).trim().split('\n').filter(Boolean)`. -/
def effLines (s : Str) : List Str :=
  (splitNl (jsTrim s)).filter (fun l => !l.isEmpty)

/-- `loadHistory()`: empty history when the file does not exist, else parse
every retained line; `none` models an uncaught parse exception. -/
def loadHistory : Option Str → Option (List Message)
  | none => some []
  | some s => parseAll (effLines s)

/-- `saveHistory(history)`: overwrite the file with the serialized lines. -/
def saveHistory (msgs : List Message) : Option Str :=
  some (historyContent msgs)

def MAX_HISTORY : Nat := 100

/-- The trim step of `addToHistory`:
`if (history.length > MAX) history.splice(0, history.length - MAX)`. -/
def trimHistory (M : Nat) (h : List Message) : List Message :=
  if h.length > M then h.drop (h.length - M) else h

/-- `addToHistory(role, content)` with the clock reading passed in as the
record's timestamp; `writeOk` models whether the file write succeeds
(`none` = a thrown load or write error). -/
def addToHistory (writeOk : Bool) (M : Nat) (m : Message) (store : Option Str) :
    Option (Option Str) :=
  (loadHistory store).bind fun h =>
    if writeOk then some (saveHistory (trimHistory M (h ++ [m]))) else none

/-- A sequence of successful `addToHistory` calls threaded through the store. -/
def appendAll (M : Nat) : List Message → Option Str → Option (Option Str)
  | [], store => some store
  | m :: ms, store =>
    match addToHistory true M m store with
    | none => none
    | some st => appendAll M ms st

/-- The pure effect of the append sequence on the in-memory history. -/
def trimFold (M : Nat) (h : List Message) (msgs : List Message) : List Message :=
  msgs.foldl (fun acc m => trimHistory M (acc ++ [m])) h

/-- `history.slice(-n)`. -/
def lastN (n : Nat) (l : List α) : List α := l.drop (l.length - n)

/-- `m => ({ role: m.role, content: m.content })`. -/
def toApiMessage (m : Message) : Role × Str := (m.role, m.content)

/-- The `messages` array built by `getResponse`: last 20 history records
reduced to role/content, then the current user message. -/
def buildMessages (history : List Message) (userMessage : Str) : List (Role × Str) :=
  (lastN 20 history).map toApiMessage ++ [(Role.user, userMessage)]

/-- One content block of the model response (`text` blocks carry text). -/
inductive Block where
  | text (s : Str)
  | other
  deriving DecidableEq, Repr

def Block.isText : Block → Bool
  | .text _ => true
  | .other => false

def fallbackText : Str := "Sorry, I could not generate a response.".data

/-- `response.content.find(b => b.type === 'text')`, then
`block && 'text' in block ? block.text : fallback`. -/
def extractReply (blocks : List Block) : Str :=
  match blocks.find? Block.isText with
  | some (.text t) => t
  | _ => fallbackText

/-- `getResponse(userMessage)`, with the model call abstracted as a function
from the request messages to `Option` of response blocks (`none` = API
error); `none` overall models a thrown exception. -/
def getResponse (userMessage : Str)
    (modelFn : List (Role × Str) → Option (List Block)) (store : Option Str) :
    Option Str :=
  (loadHistory store).bind fun history =>
    (modelFn (buildMessages history userMessage)).map extractReply

def ASSISTANT_NAME : Str := "JARVIS".data

/-- `ctx.reply(`$\x7bASSISTANT_NAME\x7d: $\x7bresponse\x7d`)` text. -/
def labelReply (r : Str) : Str := ASSISTANT_NAME ++ ": ".data ++ r

def apologyReply : Str := labelReply "Sorry, something went wrong.".data

def startCommand : Str := "/start".data

/-- `text.startsWith('/') && text !== '/start'`. -/
def isSkippedCommand (text : Str) : Bool :=
  match text with
  | '/' :: _ => text != startCommand
  | _ => false

/-- Store after the handler plus the replies delivered, in order. -/
structure HandlerResult where
  store : Option Str
  replies : List Str
  deriving DecidableEq, Repr

/-- The `message:text` handler: skip commands other than `/start`; otherwise
try `getResponse`, reply, append the user message then the assistant reply;
any thrown error is caught and answered with the fixed apology.  `w1`/`w2`
model whether the two history writes succeed; `tsU`/`tsA` are the clock
readings at the two `addToHistory` calls. -/
def handleText (text : Str) (modelFn : List (Role × Str) → Option (List Block))
    (w1 w2 : Bool) (tsU tsA : Str) (store : Option Str) : HandlerResult :=
  if isSkippedCommand text then ⟨store, []⟩
  else
    match getResponse text modelFn store with
    | none => ⟨store, [apologyReply]⟩
    | some resp =>
      match addToHistory w1 MAX_HISTORY ⟨Role.user, text, tsU⟩ store with
      | none => ⟨store, [labelReply resp, apologyReply]⟩
      | some st1 =>
        match addToHistory w2 MAX_HISTORY ⟨Role.assistant, resp, tsA⟩ st1 with
        | none => ⟨st1, [labelReply resp, apologyReply]⟩
        | some st2 => ⟨st2, [labelReply resp]⟩

/-! ## Round-trip of the JSON string escaping -/

theorem hexVal_hexDigitChar : ∀ n < 16, hexVal (hexDigitChar n) = some n := by decide

theorem pjs_quote (t : Str) : parseJString ('"' :: t) = some ([], t) := by
  rw [parseJString.eq_def]; simp

theorem pjs_escq (t : Str) :
    parseJString ('\\' :: '"' :: t) = (parseJString t).map fun p => ('"' :: p.1, p.2) := by
  rw [parseJString.eq_def]; simp

theorem pjs_escb (t : Str) :
    parseJString ('\\' :: '\\' :: t) = (parseJString t).map fun p => ('\\' :: p.1, p.2) := by
  rw [parseJString.eq_def]; simp

theorem pjs_esc8 (t : Str) :
    parseJString ('\\' :: 'b' :: t) =
      (parseJString t).map fun p => (Char.ofNat 8 :: p.1, p.2) := by
  rw [parseJString.eq_def]; simp

theorem pjs_esc12 (t : Str) :
    parseJString ('\\' :: 'f' :: t) =
      (parseJString t).map fun p => (Char.ofNat 12 :: p.1, p.2) := by
  rw [parseJString.eq_def]; simp

theorem pjs_escn (t : Str) :
    parseJString ('\\' :: 'n' :: t) = (parseJString t).map fun p => ('\n' :: p.1, p.2) := by
  rw [parseJString.eq_def]; simp

theorem pjs_esc13 (t : Str) :
    parseJString ('\\' :: 'r' :: t) =
      (parseJString t).map fun p => (Char.ofNat 13 :: p.1, p.2) := by
  rw [parseJString.eq_def]; simp

theorem pjs_esct (t : Str) :
    parseJString ('\\' :: 't' :: t) = (parseJString t).map fun p => ('\t' :: p.1, p.2) := by
  rw [parseJString.eq_def]; simp

theorem pjs_unicode (n : Nat) (hn : n < 32) (t : Str) :
    parseJString ('\\' :: 'u' :: '0' :: '0' ::
        hexDigitChar (n / 16) :: hexDigitChar (n % 16) :: t) =
      (parseJString t).map fun p => (Char.ofNat n :: p.1, p.2) := by
  have e1 : hexVal (hexDigitChar (n / 16)) = some (n / 16) :=
    hexVal_hexDigitChar _ (by omega)
  have e2 : hexVal (hexDigitChar (n % 16)) = some (n % 16) :=
    hexVal_hexDigitChar _ (by omega)
  have e0 : hexVal '0' = some 0 := rfl
  have harith : ((0 * 16 + 0) * 16 + n / 16) * 16 + n % 16 = n := by omega
  have hcond : n < 55296 ∨ (57344 ≤ n ∧ n ≤ 65535) := Or.inl (by omega)
  rw [parseJString.eq_def]
  simp only [e0, e1, e2]
  simp only [harith]
  simp [hcond]

theorem pjs_plain (c : Char) (hq : c ≠ '"') (hb : c ≠ '\\') (t : Str) :
    parseJString (c :: t) = (parseJString t).map fun p => (c :: p.1, p.2) := by
  rw [parseJString.eq_def]; simp [hq, hb]

theorem parseJString_escape (s rest : Str) :
    parseJString (jsonEscape s ++ '"' :: rest) = some (s, rest) := by
  induction s with
  | nil => simpa [jsonEscape] using pjs_quote rest
  | cons c s ih =>
    show parseJString ((escChar c ++ jsonEscape s) ++ '"' :: rest) = _
    rw [List.append_assoc]
    by_cases hq : c = '"'
    · subst hq; simp [escChar, pjs_escq, ih]
    · by_cases hb : c = '\\'
      · subst hb; simp [escChar, pjs_escb, ih]
      · by_cases h8 : c.toNat = 8
        · have hc : Char.ofNat 8 = c := by rw [← h8]; exact Char.ofNat_toNat c
          simp [escChar, hq, hb, h8, pjs_esc8, ih]
          exact hc
        · by_cases h12 : c.toNat = 12
          · have hc : Char.ofNat 12 = c := by rw [← h12]; exact Char.ofNat_toNat c
            simp [escChar, hq, hb, h8, h12, pjs_esc12, ih]
            exact hc
          · by_cases hn : c = '\n'
            · subst hn; simp [escChar, pjs_escn, ih]
            · by_cases h13 : c.toNat = 13
              · have hc : Char.ofNat 13 = c := by rw [← h13]; exact Char.ofNat_toNat c
                simp [escChar, hq, hb, h8, h12, hn, h13, pjs_esc13, ih]
                exact hc
              · by_cases ht : c = '\t'
                · subst ht; simp [escChar, pjs_esct, ih]
                · by_cases hlt : c.toNat < 32
                  · simp [escChar, hq, hb, h8, h12, hn, h13, ht, hlt,
                      pjs_unicode c.toNat hlt, ih]
                  · simp [escChar, hq, hb, h8, h12, hn, h13, ht, hlt,
                      pjs_plain c hq hb, ih]

theorem dropLit_self (p s : Str) : dropLit p (p ++ s) = some s := by
  induction p with
  | nil => rfl
  | cons c p ih => simp [dropLit, ih]

theorem parseRole_str (r : Role) : parseRole r.str = some r := by
  cases r <;> rfl

/-- Serialize-then-parse is the identity on message records. -/
theorem parseMessage_stringify (m : Message) :
    parseMessage (stringifyMessage m) = some m := by
  obtain ⟨role, content, ts⟩ := m
  simp [parseMessage, stringifyMessage, dropLit_self, parseJString_escape, parseRole_str]

/-! ## The serialized file: no raw newlines, non-empty lines, trim-stable -/

theorem newline_not_mem_escChar (c : Char) : '\n' ∉ escChar c := by
  have hd : ∀ n < 16, hexDigitChar n ≠ '\n' := by decide
  unfold escChar
  split_ifs with hq hb h8 h12 hn h13 ht hlt
  · decide
  · decide
  · decide
  · decide
  · decide
  · decide
  · decide
  · have h1 : '\n' ≠ hexDigitChar (c.toNat / 16) := (hd _ (by omega)).symm
    have h2 : '\n' ≠ hexDigitChar (c.toNat % 16) := (hd _ (by omega)).symm
    simp [h1, h2]
  · simp only [List.mem_singleton]
    intro h
    rw [← h] at hlt
    exact hlt (by decide)

theorem newline_not_mem_jsonEscape (s : Str) : '\n' ∉ jsonEscape s := by
  induction s with
  | nil => simp [jsonEscape]
  | cons c t ih =>
    show '\n' ∉ escChar c ++ jsonEscape t
    simp only [List.mem_append, not_or]
    exact ⟨newline_not_mem_escChar c, ih⟩

theorem newline_not_mem_stringify (m : Message) : '\n' ∉ stringifyMessage m := by
  have h1 := newline_not_mem_jsonEscape m.role.str
  have h2 := newline_not_mem_jsonEscape m.content
  have h3 := newline_not_mem_jsonEscape m.timestamp
  simp [stringifyMessage, roleKey, contentKey, timestampKey, List.mem_append,
    List.mem_cons, h1, h2, h3]

theorem stringify_head (m : Message) :
    stringifyMessage m = '\x7b' :: ('"' :: 'r' :: 'o' :: 'l' :: 'e' :: '"' :: ':' :: '"' ::
      (jsonEscape m.role.str ++ '"' ::
        (contentKey ++ (jsonEscape m.content ++ '"' ::
          (timestampKey ++ (jsonEscape m.timestamp ++ '"' :: ['\x7d'])))))) := rfl

theorem stringify_ne_nil (m : Message) : stringifyMessage m ≠ [] := by
  rw [stringify_head]; exact List.cons_ne_nil _ _

theorem stringify_concat (m : Message) :
    ∃ y, stringifyMessage m = y ++ ['\x7d'] := by
  refine ⟨roleKey ++ (jsonEscape m.role.str ++ '"' ::
    (contentKey ++ (jsonEscape m.content ++ '"' ::
      (timestampKey ++ (jsonEscape m.timestamp ++ ['"']))))), ?_⟩
  simp [stringifyMessage]

theorem stringify_getLast (m : Message) :
    (stringifyMessage m).getLast? = some '\x7d' := by
  obtain ⟨y, hy⟩ := stringify_concat m
  rw [hy]
  exact List.getLast?_concat y

theorem historyContent_head (m : Message) (ms : List Message) :
    ∃ t, historyContent (m :: ms) = '\x7b' :: t := by
  cases ms with
  | nil => exact ⟨_, stringify_head m⟩
  | cons m2 ms2 =>
    have he : historyContent (m :: m2 :: ms2)
        = stringifyMessage m ++ '\n' :: historyContent (m2 :: ms2) := rfl
    rw [he, stringify_head m, List.cons_append]
    exact ⟨_, rfl⟩

theorem historyContent_ne_nil (m : Message) (ms : List Message) :
    historyContent (m :: ms) ≠ [] := by
  obtain ⟨t, ht⟩ := historyContent_head m ms
  rw [ht]
  exact List.cons_ne_nil _ _

theorem historyContent_getLast (m : Message) (ms : List Message) :
    (historyContent (m :: ms)).getLast? = some '\x7d' := by
  induction ms generalizing m with
  | nil => exact stringify_getLast m
  | cons m2 ms2 ih =>
    show (stringifyMessage m ++ '\n' :: joinLines ((m2 :: ms2).map stringifyMessage)).getLast? = _
    rw [List.getLast?_append]
    have : ('\n' :: joinLines ((m2 :: ms2).map stringifyMessage)).getLast? = some '\x7d' := by
      show (['\n'] ++ historyContent (m2 :: ms2)).getLast? = _
      rw [List.getLast?_append, ih m2]
      rfl
    rw [this]
    rfl

theorem jsTrim_eq_self (s : Str) (h1 : ∀ c, s.head? = some c → isJsWs c = false)
    (h2 : ∀ c, s.getLast? = some c → isJsWs c = false) : jsTrim s = s := by
  unfold jsTrim
  have e1 : s.dropWhile isJsWs = s := by
    cases s with
    | nil => rfl
    | cons c t =>
      have hc := h1 c rfl
      simp [List.dropWhile_cons, hc]
  rw [e1]
  have e2 : s.reverse.dropWhile isJsWs = s.reverse := by
    cases hrev : s.reverse with
    | nil => rfl
    | cons c t =>
      have hlast : s.getLast? = some c := by
        rw [← List.head?_reverse, hrev]; rfl
      have hc := h2 c hlast
      simp [List.dropWhile_cons, hc]
  rw [e2, List.reverse_reverse]

theorem jsTrim_historyContent (msgs : List Message) :
    jsTrim (historyContent msgs) = historyContent msgs := by
  cases msgs with
  | nil => rfl
  | cons m ms =>
    apply jsTrim_eq_self
    · intro c hc
      obtain ⟨t, ht⟩ := historyContent_head m ms
      rw [ht] at hc
      simp at hc
      rw [← hc]
      rfl
    · intro c hc
      rw [historyContent_getLast m ms] at hc
      simp at hc
      rw [← hc]
      rfl

/-! ## split is a left inverse of join on newline-free lines -/

theorem splitNl_no_newline (l : Str) (h : '\n' ∉ l) : splitNl l = [l] := by
  induction l with
  | nil => rfl
  | cons c t ih =>
    have hc : ¬c = '\n' := fun e => h (e ▸ List.mem_cons_self _ _)
    have ht : '\n' ∉ t := fun m => h (List.mem_cons_of_mem _ m)
    rw [splitNl.eq_def]
    simp [hc, ih ht]

theorem splitNl_append (l t : Str) (h : '\n' ∉ l) :
    splitNl (l ++ '\n' :: t) = l :: splitNl t := by
  induction l with
  | nil =>
    rw [List.nil_append, splitNl.eq_def]
    simp
  | cons c u ih =>
    have hc : ¬c = '\n' := fun e => h (e ▸ List.mem_cons_self _ _)
    have hu : '\n' ∉ u := fun m => h (List.mem_cons_of_mem _ m)
    rw [List.cons_append, splitNl.eq_def]
    simp [hc, ih hu]

theorem splitNl_joinLines (lines : List Str) (hnl : ∀ l ∈ lines, '\n' ∉ l)
    (hne : lines ≠ []) : splitNl (joinLines lines) = lines := by
  induction lines with
  | nil => exact absurd rfl hne
  | cons l ls ih =>
    cases ls with
    | nil => exact splitNl_no_newline l (hnl l (by simp))
    | cons l2 ls2 =>
      show splitNl (l ++ '\n' :: joinLines (l2 :: ls2)) = _
      rw [splitNl_append _ _ (hnl l (by simp))]
      rw [ih (fun x hx => hnl x (List.mem_cons_of_mem _ hx)) (List.cons_ne_nil _ _)]

theorem parseAll_map_stringify (msgs : List Message) :
    parseAll (msgs.map stringifyMessage) = some msgs := by
  induction msgs with
  | nil => rfl
  | cons m ms ih => simp [parseAll, parseMessage_stringify, ih]

/-- Core round-trip: loading a just-saved history returns it unchanged. -/
theorem loadHistory_saveHistory (msgs : List Message) :
    loadHistory (saveHistory msgs) = some msgs := by
  show parseAll (effLines (historyContent msgs)) = some msgs
  unfold effLines
  rw [jsTrim_historyContent]
  cases msgs with
  | nil => rfl
  | cons m ms =>
    show parseAll (((splitNl (joinLines ((m :: ms).map stringifyMessage))).filter
      (fun l => !l.isEmpty))) = _
    rw [splitNl_joinLines _ (fun l hl => by
        obtain ⟨x, hx, hxe⟩ := List.mem_map.mp hl
        rw [← hxe]
        exact newline_not_mem_stringify x)
      (by simp)]
    rw [List.filter_eq_self.mpr (fun l hl => by
        obtain ⟨x, hx, hxe⟩ := List.mem_map.mp hl
        rw [← hxe]
        simp [stringify_ne_nil x])]
    exact parseAll_map_stringify _

/-! ## Bounded append layer -/

theorem trimHistory_eq_drop (M : Nat) (h : List Message) :
    trimHistory M h = h.drop (h.length - M) := by
  unfold trimHistory
  split_ifs with hgt
  · rfl
  · have hz : h.length - M = 0 := by omega
    rw [hz, List.drop_zero]

theorem trimFold_eq_drop (M : Nat) (l : List Message) :
    ∀ h : List Message, h.length ≤ M →
      trimFold M h l = (h ++ l).drop ((h.length + l.length) - M) := by
  induction l with
  | nil =>
    intro h hh
    have hz : h.length - M = 0 := by omega
    simp [trimFold, hz]
  | cons m ms ih =>
    intro h hh
    rw [show trimFold M h (m :: ms) = trimFold M (trimHistory M (h ++ [m])) ms from rfl]
    have hlen : (trimHistory M (h ++ [m])).length ≤ M := by
      rw [trimHistory_eq_drop]
      simp only [List.length_drop]
      omega
    rw [ih _ hlen]
    simp only [trimHistory_eq_drop]
    have hle : (h ++ [m]).length - M ≤ (h ++ [m]).length := Nat.sub_le _ _
    rw [← List.drop_append_of_le_length hle, List.drop_drop]
    have e1 : (h ++ [m]) ++ ms = h ++ m :: ms := by simp
    rw [e1]
    congr 1
    simp only [List.length_drop, List.length_append, List.length_cons, List.length_nil]
    omega

theorem appendAll_ok (M : Nat) (msgs : List Message) :
    ∀ (st : Option Str) (h : List Message), loadHistory st = some h →
      ∃ st2, appendAll M msgs st = some st2 ∧
        loadHistory st2 = some (trimFold M h msgs) := by
  induction msgs with
  | nil =>
    intro st h hl
    exact ⟨st, rfl, by simpa [trimFold] using hl⟩
  | cons m ms ih =>
    intro st h hl
    have hstep : addToHistory true M m st
        = some (saveHistory (trimHistory M (h ++ [m]))) := by
      simp [addToHistory, hl]
    obtain ⟨st2, ha, hb⟩ :=
      ih (saveHistory (trimHistory M (h ++ [m]))) _
        (loadHistory_saveHistory (trimHistory M (h ++ [m])))
    refine ⟨st2, ?_, ?_⟩
    · simp only [appendAll, hstep]
      exact ha
    · exact hb

/-! ## Claim theorems -/

/-- C1: for every sequence of `append` calls with configured maximum `M`,
after each call (that is, after any prefix `take k` of the appends) the
persisted history length equals `min` of the number of records appended so
far and `M`, and the retained records are exactly the most recently appended
ones in insertion order (a suffix of the appended sequence). -/
theorem bounded_history_invariant (M : Nat) (msgs : List Message) (k : Nat) :
    ∃ st discarded retained,
      appendAll M (msgs.take k) none = some st ∧
      msgs.take k = discarded ++ retained ∧
      retained.length = min (msgs.take k).length M ∧
      loadHistory st = some retained := by
  obtain ⟨st, ha, hb⟩ := appendAll_ok M (msgs.take k) none [] rfl
  refine ⟨st, (msgs.take k).take ((msgs.take k).length - M),
    (msgs.take k).drop ((msgs.take k).length - M), ha,
    (List.take_append_drop _ _).symm, ?_, ?_⟩
  · simp only [List.length_drop]
    omega
  · rw [hb, trimFold_eq_drop M (msgs.take k) [] (by simp)]
    simp

/-- C2: the request passed to the model invocation is the last
`min (H, 20)` prior records — a suffix of the loaded history, order
preserved, reduced to role and content — followed by exactly one final
user entry carrying the new message. -/
theorem context_window_shape (history : List Message) (msg : Str) :
    ∃ ctx older,
      buildMessages history msg = ctx.map toApiMessage ++ [(Role.user, msg)] ∧
      ctx.length = min history.length 20 ∧
      history = older ++ ctx := by
  refine ⟨lastN 20 history, history.take (history.length - 20), rfl, ?_, ?_⟩
  · simp only [lastN, List.length_drop]
    omega
  · exact (List.take_append_drop _ _).symm

/-- C3: saving any list of message records and reloading the store yields
the same list — same role, content and timestamp for each record, same
relative order, no reordering and no deduplication. -/
theorem save_load_roundtrip (msgs : List Message) :
    loadHistory (saveHistory msgs) = some msgs :=
  loadHistory_saveHistory msgs

/-- C8: when no log file exists, `loadHistory` returns the empty sequence
rather than failing (and, being a pure read, leaves the store untouched). -/
theorem load_missing_file : loadHistory none = some [] := rfl

/-! ## Reply extraction (C5) -/

theorem find?_first_match (p : Block → Bool) :
    ∀ (pre : List Block) (x : Block) (post : List Block),
      (∀ b ∈ pre, p b = false) → p x = true →
      List.find? p (pre ++ x :: post) = some x := by
  intro pre
  induction pre with
  | nil =>
    intro x post _ hx
    rw [List.nil_append]
    exact List.find?_cons_of_pos _ hx
  | cons b bs ih =>
    intro x post hpre hx
    rw [List.cons_append,
      List.find?_cons_of_neg _ (by simp [hpre b (List.mem_cons_self b bs)])]
    exact ih x post (fun q hq => hpre q (List.mem_cons_of_mem _ hq)) hx

/-- C5: when the model response has no textual content block the reply is the
fixed fallback string; when a textual block exists the reply is the text of
the first such block. -/
theorem extract_first_text_or_fallback (blocks : List Block) :
    ((∀ b ∈ blocks, b.isText = false) → extractReply blocks = fallbackText) ∧
    (∀ (pre post : List Block) (t : Str),
      blocks = pre ++ Block.text t :: post → (∀ b ∈ pre, b.isText = false) →
      extractReply blocks = t) := by
  constructor
  · intro hnone
    unfold extractReply
    rw [List.find?_eq_none.mpr (fun x hx => by simp [hnone x hx])]
  · intro pre post t hb hpre
    subst hb
    unfold extractReply
    rw [find?_first_match Block.isText pre (Block.text t) post hpre rfl]

theorem extract_first_text_or_fallback_witness :
    extractReply [Block.other] = fallbackText ∧
    extractReply [Block.other, Block.text ['h', 'i']] = ['h', 'i'] := by
  constructor
  · exact (extract_first_text_or_fallback [Block.other]).1 (by decide)
  · exact (extract_first_text_or_fallback [Block.other, Block.text ['h', 'i']]).2
      [Block.other] [] ['h', 'i'] rfl (by decide)

/-! ## Corrupt log lines (C7) -/

theorem parseAll_none_of_mem :
    ∀ (ls : List Str) (line : Str), line ∈ ls → parseMessage line = none →
      parseAll ls = none := by
  intro ls
  induction ls with
  | nil =>
    intro line h
    cases h
  | cons l ls ih =>
    intro line hmem hbad
    rcases List.mem_cons.mp hmem with he | hm
    · subst he
      simp [parseAll, hbad]
    · cases hl : parseMessage l
      · simp [parseAll, hl]
      · simp [parseAll, hl, ih line hm hbad]

/-- C7: if any retained line of the persisted log fails to parse as a record,
the whole load fails — the error propagates, no line is skipped and nothing
is recovered. -/
theorem corrupt_line_load_fails (s line : Str) (hmem : line ∈ effLines s)
    (hbad : parseMessage line = none) : loadHistory (some s) = none :=
  parseAll_none_of_mem (effLines s) line hmem hbad

theorem corrupt_line_load_fails_witness : loadHistory (some "garbage".data) = none :=
  corrupt_line_load_fails "garbage".data "garbage".data (by decide) (by decide)

/-! ## Command handling (C9) -/

/-- C9: an inbound text starting with the command prefix `/` that is not
exactly `/start` produces no reply, leaves the store unchanged, and the
outcome does not depend on the model function (no model invocation). -/
theorem commands_ignored (text : Str)
    (modelFn : List (Role × Str) → Option (List Block)) (w1 w2 : Bool)
    (tsU tsA : Str) (store : Option Str)
    (hslash : text.head? = some '/') (hne : text ≠ startCommand) :
    handleText text modelFn w1 w2 tsU tsA store = ⟨store, []⟩ := by
  obtain ⟨rest, hrest⟩ : ∃ rest, text = '/' :: rest := by
    cases text with
    | nil => cases hslash
    | cons c t =>
      simp only [List.head?_cons, Option.some.injEq] at hslash
      exact ⟨t, by rw [hslash]⟩
  have hs : isSkippedCommand text = true := by
    subst hrest
    simp [isSkippedCommand, bne_iff_ne]
    exact hne
  simp [handleText, hs]

theorem commands_ignored_witness :
    handleText "/help".data (fun _ => none) true true [] [] none
      = ⟨none, []⟩ :=
  commands_ignored "/help".data (fun _ => none) true true [] [] none
    (by decide) (by decide)

/-! ## Error handling in the message cycle (C4) -/

/-- C4 as stated is false: a history write failure on the second append
leaves the user record persisted and two replies delivered. -/
theorem apology_cycle_counterexample :
    ((handleText ['h', 'i'] (fun _ => some [Block.text ['o', 'k']])
        true false [] [] none).store ≠ none) ∧
    ((handleText ['h', 'i'] (fun _ => some [Block.text ['o', 'k']])
        true false [] [] none).replies ≠ [apologyReply]) := by
  exact ⟨by decide, by decide⟩

/-- C4 amended: when the respond cycle fails before the reply is delivered
(model call failure or history read failure inside `getResponse`), the
persisted history is left entirely unchanged and the only reply delivered is
the fixed apology string. -/
theorem failure_before_reply_preserves_history (text : Str)
    (modelFn : List (Role × Str) → Option (List Block)) (w1 w2 : Bool)
    (tsU tsA : Str) (store : Option Str)
    (hcmd : isSkippedCommand text = false)
    (hfail : getResponse text modelFn store = none) :
    handleText text modelFn w1 w2 tsU tsA store = ⟨store, [apologyReply]⟩ := by
  simp [handleText, hcmd, hfail]

theorem failure_before_reply_preserves_history_witness :
    handleText ['h', 'i'] (fun _ => none) true true [] [] none
      = ⟨none, [apologyReply]⟩ :=
  failure_before_reply_preserves_history ['h', 'i'] (fun _ => none) true true [] [] none
    (by decide) (by decide)

/-! ## Successful cycle appends user then assistant (C6) -/

/-- C6: on a successful cycle the handler performs exactly two appends —
first the user message with the clock reading supplied at that append, then
the assistant reply with its clock reading — each persisting one record at
the end of the (trimmed) history. -/
theorem success_appends_user_then_assistant (text : Str)
    (modelFn : List (Role × Str) → Option (List Block)) (tsU tsA : Str)
    (store : Option Str) (resp : Str)
    (hcmd : isSkippedCommand text = false)
    (hresp : getResponse text modelFn store = some resp) :
    ∃ h st1 st2,
      loadHistory store = some h ∧
      addToHistory true MAX_HISTORY ⟨Role.user, text, tsU⟩ store = some st1 ∧
      loadHistory st1
        = some (trimHistory MAX_HISTORY (h ++ [⟨Role.user, text, tsU⟩])) ∧
      addToHistory true MAX_HISTORY ⟨Role.assistant, resp, tsA⟩ st1 = some st2 ∧
      loadHistory st2
        = some (trimHistory MAX_HISTORY
            (trimHistory MAX_HISTORY (h ++ [⟨Role.user, text, tsU⟩])
              ++ [⟨Role.assistant, resp, tsA⟩])) ∧
      handleText text modelFn true true tsU tsA store = ⟨st2, [labelReply resp]⟩ := by
  obtain ⟨h, hl⟩ : ∃ h, loadHistory store = some h := by
    cases hl : loadHistory store with
    | none =>
      unfold getResponse at hresp
      rw [hl] at hresp
      cases hresp
    | some h => exact ⟨h, rfl⟩
  have h1 : addToHistory true MAX_HISTORY ⟨Role.user, text, tsU⟩ store
      = some (saveHistory (trimHistory MAX_HISTORY (h ++ [⟨Role.user, text, tsU⟩]))) := by
    simp [addToHistory, hl]
  have hl1 := loadHistory_saveHistory
    (trimHistory MAX_HISTORY (h ++ [⟨Role.user, text, tsU⟩]))
  have h2 : addToHistory true MAX_HISTORY ⟨Role.assistant, resp, tsA⟩
      (saveHistory (trimHistory MAX_HISTORY (h ++ [⟨Role.user, text, tsU⟩])))
      = some (saveHistory (trimHistory MAX_HISTORY
          (trimHistory MAX_HISTORY (h ++ [⟨Role.user, text, tsU⟩])
            ++ [⟨Role.assistant, resp, tsA⟩]))) := by
    simp [addToHistory, hl1]
  refine ⟨h, _, _, hl, h1, hl1, h2, loadHistory_saveHistory _, ?_⟩
  simp [handleText, hcmd, hresp, h1, h2]

theorem success_appends_user_then_assistant_witness :
    ∃ h st1 st2,
      loadHistory none = some h ∧
      addToHistory true MAX_HISTORY ⟨Role.user, ['h', 'i'], []⟩ none = some st1 ∧
      loadHistory st1
        = some (trimHistory MAX_HISTORY (h ++ [⟨Role.user, ['h', 'i'], []⟩])) ∧
      addToHistory true MAX_HISTORY ⟨Role.assistant, ['o', 'k'], []⟩ st1 = some st2 ∧
      loadHistory st2
        = some (trimHistory MAX_HISTORY
            (trimHistory MAX_HISTORY (h ++ [⟨Role.user, ['h', 'i'], []⟩])
              ++ [⟨Role.assistant, ['o', 'k'], []⟩])) ∧
      handleText ['h', 'i'] (fun _ => some [Block.text ['o', 'k']]) true true [] [] none
        = ⟨st2, [labelReply ['o', 'k']]⟩ :=
  success_appends_user_then_assistant ['h', 'i']
    (fun _ => some [Block.text ['o', 'k']]) [] [] none ['o', 'k']
    (by decide) (by decide)

/-! ## Well-formed files load fully (C10) -/

theorem parseAll_some_of_forall :
    ∀ ls : List Str, (∀ l ∈ ls, parseMessage l ≠ none) →
      ∃ ms, parseAll ls = some ms ∧ ls.map parseMessage = ms.map some := by
  intro ls
  induction ls with
  | nil => exact fun _ => ⟨[], rfl, rfl⟩
  | cons l ls ih =>
    intro hall
    obtain ⟨ms, h1, h2⟩ := ih (fun x hx => hall x (List.mem_cons_of_mem _ hx))
    cases hm : parseMessage l with
    | none => exact absurd hm (hall l (List.mem_cons_self _ _))
    | some m =>
      refine ⟨m :: ms, ?_, ?_⟩
      · simp [parseAll, hm, h1]
      · simp [hm, h2]

theorem dropWhile_all_ws (ws : Str) (hw : ∀ c ∈ ws, isJsWs c = true) :
    ws.dropWhile isJsWs = [] := by
  induction ws with
  | nil => rfl
  | cons c t ih =>
    simp [List.dropWhile_cons, hw c (List.mem_cons_self _ _),
      ih (fun x hx => hw x (List.mem_cons_of_mem _ hx))]

theorem jsTrim_all_ws (ws : Str) (hw : ∀ c ∈ ws, isJsWs c = true) : jsTrim ws = [] := by
  unfold jsTrim
  rw [dropWhile_all_ws ws hw]
  rfl

theorem jsTrim_padded (body ws1 ws2 : Str)
    (hw1 : ∀ c ∈ ws1, isJsWs c = true) (hw2 : ∀ c ∈ ws2, isJsWs c = true)
    (c0 : Char) (t0 : Str) (hbody : body = c0 :: t0) (hc0 : isJsWs c0 = false)
    (clast : Char) (hlast : body.getLast? = some clast) (hcl : isJsWs clast = false) :
    jsTrim (ws1 ++ body ++ ws2) = body := by
  have s1 : (ws1 ++ body ++ ws2).dropWhile isJsWs = body ++ ws2 := by
    rw [List.append_assoc, List.dropWhile_append_of_pos hw1, hbody, List.cons_append,
      List.dropWhile_cons]
    simp [hc0]
  have s2 : (body ++ ws2).reverse.dropWhile isJsWs = body.reverse := by
    rw [List.reverse_append,
      List.dropWhile_append_of_pos (fun c hc => hw2 c (List.mem_reverse.mp hc))]
    obtain ⟨u, hu⟩ : ∃ u, body.reverse = clast :: u := by
      cases hrev : body.reverse with
      | nil =>
        rw [← List.head?_reverse, hrev] at hlast
        cases hlast
      | cons d u =>
        have hd : body.reverse.head? = some clast := by
          rw [List.head?_reverse]
          exact hlast
        rw [hrev] at hd
        simp only [List.head?_cons, Option.some.injEq] at hd
        subst hd
        exact ⟨u, rfl⟩
    rw [hu, List.dropWhile_cons]
    simp [hcl]
  unfold jsTrim
  rw [s1, s2, List.reverse_reverse]

theorem parseAll_filter_split (msgs : List Message) :
    parseAll ((splitNl (historyContent msgs)).filter (fun l => !l.isEmpty))
      = some msgs := by
  cases msgs with
  | nil => rfl
  | cons m ms =>
    rw [show historyContent (m :: ms) = joinLines ((m :: ms).map stringifyMessage)
      from rfl]
    rw [splitNl_joinLines _ (fun l hl => by
        obtain ⟨x, hx, hxe⟩ := List.mem_map.mp hl
        rw [← hxe]
        exact newline_not_mem_stringify x)
      (by simp)]
    rw [List.filter_eq_self.mpr (fun l hl => by
        obtain ⟨x, hx, hxe⟩ := List.mem_map.mp hl
        rw [← hxe]
        simp [stringify_ne_nil x])]
    exact parseAll_map_stringify _

/-- C10: an existing log whose retained lines all parse loads in full, in
file order (the parse-error branch is unreachable); leading and trailing
whitespace and empty lines are skipped, never treated as corrupt records. -/
theorem load_wellformed_file :
    (∀ s : Str, (∀ l ∈ effLines s, parseMessage l ≠ none) →
      ∃ msgs, loadHistory (some s) = some msgs ∧
        (effLines s).map parseMessage = msgs.map some) ∧
    (∀ (msgs : List Message) (ws1 ws2 : Str),
      (∀ c ∈ ws1, isJsWs c = true) → (∀ c ∈ ws2, isJsWs c = true) →
      loadHistory (some (ws1 ++ historyContent msgs ++ ws2)) = some msgs) ∧
    (∀ m1 m2 : Message,
      loadHistory
        (some (stringifyMessage m1 ++ '\n' :: '\n' :: stringifyMessage m2))
        = some [m1, m2]) := by
  refine ⟨?_, ?_, ?_⟩
  · intro s hall
    exact parseAll_some_of_forall (effLines s) hall
  · intro msgs ws1 ws2 hw1 hw2
    cases msgs with
    | nil =>
      show parseAll (effLines ((ws1 ++ historyContent []) ++ ws2)) = some []
      unfold effLines
      rw [show historyContent [] = ([] : Str) from rfl, List.append_nil]
      rw [jsTrim_all_ws (ws1 ++ ws2) (fun c hc => by
        rcases List.mem_append.mp hc with h | h
        exacts [hw1 c h, hw2 c h])]
      rfl
    | cons m ms =>
      obtain ⟨t, ht⟩ := historyContent_head m ms
      show parseAll (effLines _) = _
      unfold effLines
      rw [jsTrim_padded (historyContent (m :: ms)) ws1 ws2 hw1 hw2 '\x7b' t ht
        (by decide) '\x7d' (historyContent_getLast m ms) (by decide)]
      exact parseAll_filter_split (m :: ms)
  · intro m1 m2
    have hh : ∀ c, (stringifyMessage m1 ++ '\n' :: '\n' :: stringifyMessage m2).head?
        = some c → isJsWs c = false := by
      intro c hc
      rw [stringify_head m1, List.cons_append] at hc
      simp only [List.head?_cons, Option.some.injEq] at hc
      rw [← hc]
      rfl
    have hlast : (stringifyMessage m1 ++ '\n' :: '\n' :: stringifyMessage m2).getLast?
        = some '\x7d' := by
      rw [List.getLast?_append]
      have h2 : ('\n' :: '\n' :: stringifyMessage m2).getLast? = some '\x7d' := by
        show (['\n', '\n'] ++ stringifyMessage m2).getLast? = _
        rw [List.getLast?_append, stringify_getLast m2]
        rfl
      rw [h2]
      rfl
    have htrim := jsTrim_eq_self _ hh (fun c hc => by
      rw [hlast] at hc
      simp only [Option.some.injEq] at hc
      rw [← hc]
      rfl)
    show parseAll (effLines _) = _
    unfold effLines
    rw [htrim]
    rw [splitNl_append _ _ (newline_not_mem_stringify m1)]
    rw [show splitNl ('\n' :: stringifyMessage m2)
        = [] :: splitNl (stringifyMessage m2) from by
      rw [splitNl.eq_def]
      simp]
    rw [splitNl_no_newline _ (newline_not_mem_stringify m2)]
    have e1 : (stringifyMessage m1).isEmpty = false :=
      List.isEmpty_eq_false.mpr (stringify_ne_nil m1)
    have e2 : (stringifyMessage m2).isEmpty = false :=
      List.isEmpty_eq_false.mpr (stringify_ne_nil m2)
    simp [List.filter_cons, e1, e2, parseAll, parseMessage_stringify]

theorem load_wellformed_file_witness :
    (∃ msgs,
      loadHistory (some (stringifyMessage ⟨Role.user, ['h'], ['t']⟩)) = some msgs ∧
      (effLines (stringifyMessage ⟨Role.user, ['h'], ['t']⟩)).map parseMessage
        = msgs.map some) ∧
    loadHistory (some ([' '] ++ historyContent [⟨Role.user, ['h'], ['t']⟩] ++ ['\n']))
      = some [⟨Role.user, ['h'], ['t']⟩] ∧
    loadHistory (some (stringifyMessage ⟨Role.user, ['h'], ['t']⟩ ++ '\n' :: '\n' ::
        stringifyMessage ⟨Role.assistant, ['o'], ['u']⟩))
      = some [⟨Role.user, ['h'], ['t']⟩, ⟨Role.assistant, ['o'], ['u']⟩] :=
  ⟨load_wellformed_file.1 _ (by decide),
   load_wellformed_file.2.1 [⟨Role.user, ['h'], ['t']⟩] [' '] ['\n']
     (by decide) (by decide),
   load_wellformed_file.2.2 _ _⟩
